import Mathlib

/-
  Shallow embedding of the enimda border-detection crate (src/lib.rs, src/utils.rs).

  Images are modelled as grayscale (luma) buffers: the decoded RGBA frame is
  consumed by the algorithm only through its grayscale view, so the model keeps
  width, height and a total pixel function into Fin 256 (u8 luma values).
  Floating point (f32) quantities are modelled exactly: rationals for the
  scale factor, the depth fraction and the sampling density, and real numbers
  for entropy values (which involve log2).  Randomness (rand::thread_rng) is
  modelled by explicit parameters: a draw function standing for the successive
  gen_range calls, and a shuffle function standing for rng.shuffle.
-/

open scoped Classical
open Real

/-- A single-channel (luma, u8) pixel grid, as used by the scanner after
grayscale conversion.  The pixel function is total; the algorithm only reads
in-bounds coordinates. -/
structure GrayImage where
  width : ℕ
  height : ℕ
  pix : ℕ → ℕ → Fin 256

/-- The pixel values of the rectangular sub-region [x, x+w) x [y, y+h),
as read by sub_image(...).pixels() in utils.rs entropy. -/
def regionVals (img : GrayImage) (x y w h : ℕ) : List (Fin 256) :=
  (List.range h).flatMap fun j => (List.range w).map fun i => img.pix (x + i) (y + j)

/-- Shannon entropy of the luma histogram of a region, in bits: utils.rs
entropy builds a count per distinct value and folds acc - f * log2 f with
f = count / (w * h). -/
noncomputable def entropy (img : GrayImage) (x y w h : ℕ) : ℝ :=
  ∑ v ∈ (regionVals img x y w h).toFinset,
    -(((regionVals img x y w h).count v : ℝ) / ((w * h : ℕ) : ℝ) *
      Real.logb 2 (((regionVals img x y w h).count v : ℝ) / ((w * h : ℕ) : ℝ)))

lemma regionVals_length (img : GrayImage) (x y w h : ℕ) :
    (regionVals img x y w h).length = w * h := by
  simp [regionVals, Function.comp_def, mul_comm]

lemma mem_regionVals {img : GrayImage} {x y w h : ℕ} {v : Fin 256} :
    v ∈ regionVals img x y w h ↔ ∃ j < h, ∃ i < w, img.pix (x + i) (y + j) = v := by
  simp [regionVals]

lemma regionVals_eq_nil {img : GrayImage} {x y w h : ℕ} (hwh : w * h = 0) :
    regionVals img x y w h = [] := by
  have : (regionVals img x y w h).length = 0 := by rw [regionVals_length]; exact hwh
  exact List.length_eq_zero.mp this

lemma regionVals_ne_nil {img : GrayImage} {x y w h : ℕ} (hwh : 0 < w * h) :
    regionVals img x y w h ≠ [] := by
  intro h0
  have hlen := regionVals_length img x y w h
  rw [h0] at hlen
  simp only [List.length_nil] at hlen
  omega

/-- Gibbs-style bound: the Shannon entropy (natural log) of a probability
vector supported on a finite set is at most log of the support size. -/
lemma sum_negMulLog_le_log_card {α : Type} [DecidableEq α] (S : Finset α) (f : α → ℝ)
    (hpos : ∀ v ∈ S, 0 < f v) (hsum : ∑ v ∈ S, f v = 1) :
    ∑ v ∈ S, -(f v * Real.log (f v)) ≤ Real.log (S.card : ℝ) := by
  have hne : S.Nonempty := by
    rcases S.eq_empty_or_nonempty with h | h
    · exfalso; rw [h] at hsum; simp at hsum
    · exact h
  have hk : (0 : ℝ) < (S.card : ℝ) := by exact_mod_cast hne.card_pos
  have key : ∀ v ∈ S,
      -(f v * Real.log (f v)) - f v * Real.log (S.card : ℝ) ≤ 1 / (S.card : ℝ) - f v := by
    intro v hv
    have hfv := hpos v hv
    have hx : (0 : ℝ) < 1 / ((S.card : ℝ) * f v) := by positivity
    have h1 : Real.log (1 / ((S.card : ℝ) * f v)) ≤ 1 / ((S.card : ℝ) * f v) - 1 :=
      Real.log_le_sub_one_of_pos hx
    have h2 : f v * Real.log (1 / ((S.card : ℝ) * f v)) ≤ f v * (1 / ((S.card : ℝ) * f v) - 1) :=
      mul_le_mul_of_nonneg_left h1 hfv.le
    have h3 : Real.log (1 / ((S.card : ℝ) * f v)) = -(Real.log (S.card : ℝ) + Real.log (f v)) := by
      rw [one_div, Real.log_inv, Real.log_mul (ne_of_gt hk) (ne_of_gt hfv)]
    have h4 : f v * (1 / ((S.card : ℝ) * f v) - 1) = 1 / (S.card : ℝ) - f v := by
      field_simp
      ring
    rw [h3] at h2
    rw [h4] at h2
    have h5 : f v * -(Real.log (S.card : ℝ) + Real.log (f v))
        = -(f v * Real.log (f v)) - f v * Real.log (S.card : ℝ) := by ring
    rw [h5] at h2
    exact h2
  have hsum2 := Finset.sum_le_sum key
  have hL : ∑ v ∈ S, (-(f v * Real.log (f v)) - f v * Real.log (S.card : ℝ))
      = (∑ v ∈ S, -(f v * Real.log (f v))) - Real.log (S.card : ℝ) := by
    rw [Finset.sum_sub_distrib, ← Finset.sum_mul, hsum, one_mul]
  have hR : ∑ v ∈ S, ((1 : ℝ) / (S.card : ℝ) - f v) = 0 := by
    rw [Finset.sum_sub_distrib, Finset.sum_const, hsum]
    field_simp
  rw [hL, hR] at hsum2
  linarith

lemma entropy_of_empty {img : GrayImage} {x y w h : ℕ} (hwh : w * h = 0) :
    entropy img x y w h = 0 := by
  rw [entropy, regionVals_eq_nil hwh]
  simp

lemma entropy_nonneg (img : GrayImage) (x y w h : ℕ) : 0 ≤ entropy img x y w h := by
  by_cases hwh : w * h = 0
  · rw [entropy_of_empty hwh]
  · rw [entropy]
    apply Finset.sum_nonneg
    intro v hv
    have hmem : v ∈ regionVals img x y w h := List.mem_toFinset.mp hv
    have hc : 0 < (regionVals img x y w h).count v := List.count_pos_iff.mpr hmem
    have hcl : (regionVals img x y w h).count v ≤ w * h :=
      le_of_le_of_eq (List.count_le_length _ _) (regionVals_length img x y w h)
    have hN : (0 : ℝ) < ((w * h : ℕ) : ℝ) := by
      exact_mod_cast Nat.pos_of_ne_zero hwh
    have hf0 : (0 : ℝ) < ((regionVals img x y w h).count v : ℝ) / ((w * h : ℕ) : ℝ) := by
      apply div_pos _ hN
      exact_mod_cast hc
    have hf1 : ((regionVals img x y w h).count v : ℝ) / ((w * h : ℕ) : ℝ) ≤ 1 := by
      rw [div_le_one hN]
      exact_mod_cast hcl
    have hlb : Real.logb 2 (((regionVals img x y w h).count v : ℝ) / ((w * h : ℕ) : ℝ)) ≤ 0 :=
      Real.logb_nonpos (by norm_num) hf0.le hf1
    have := mul_nonpos_of_nonneg_of_nonpos hf0.le hlb
    linarith

lemma list_toFinset_sum_count {α : Type} [DecidableEq α] (l : List α) :
    ∑ a ∈ l.toFinset, l.count a = l.length := by
  simp

lemma count_sum_div_len {img : GrayImage} {x y w h : ℕ} (hwh : 0 < w * h) :
    ∑ v ∈ (regionVals img x y w h).toFinset,
      ((regionVals img x y w h).count v : ℝ) / ((w * h : ℕ) : ℝ) = 1 := by
  have hN : (0 : ℝ) < ((w * h : ℕ) : ℝ) := by exact_mod_cast hwh
  rw [← Finset.sum_div]
  rw [div_eq_one_iff_eq (ne_of_gt hN)]
  have hcast : ∑ v ∈ (regionVals img x y w h).toFinset, ((regionVals img x y w h).count v : ℝ)
      = ((∑ v ∈ (regionVals img x y w h).toFinset, (regionVals img x y w h).count v : ℕ) : ℝ) := by
    push_cast
    rfl
  rw [hcast, list_toFinset_sum_count, regionVals_length]

lemma entropy_le_eight (img : GrayImage) (x y w h : ℕ) : entropy img x y w h ≤ 8 := by
  by_cases hwh : w * h = 0
  · rw [entropy_of_empty hwh]; norm_num
  · have hwh' : 0 < w * h := Nat.pos_of_ne_zero hwh
    have hN : (0 : ℝ) < ((w * h : ℕ) : ℝ) := by exact_mod_cast hwh'
    have hlog2 : (0 : ℝ) < Real.log 2 := Real.log_pos (by norm_num)
    have hpos : ∀ v ∈ (regionVals img x y w h).toFinset,
        0 < ((regionVals img x y w h).count v : ℝ) / ((w * h : ℕ) : ℝ) := by
      intro v hv
      apply div_pos _ hN
      exact_mod_cast List.count_pos_iff.mpr (List.mem_toFinset.mp hv)
    have hG := sum_negMulLog_le_log_card (regionVals img x y w h).toFinset
      (fun v => ((regionVals img x y w h).count v : ℝ) / ((w * h : ℕ) : ℝ))
      hpos (count_sum_div_len hwh')
    have hE : entropy img x y w h
        = (∑ v ∈ (regionVals img x y w h).toFinset,
            -(((regionVals img x y w h).count v : ℝ) / ((w * h : ℕ) : ℝ) *
              Real.log (((regionVals img x y w h).count v : ℝ) / ((w * h : ℕ) : ℝ))))
          / Real.log 2 := by
      rw [entropy, Finset.sum_div]
      apply Finset.sum_congr rfl
      intro v _
      rw [Real.logb]
      ring
    have hcard1 : 0 < (regionVals img x y w h).toFinset.card := by
      rw [Finset.card_pos]
      rcases List.exists_mem_of_ne_nil _ (regionVals_ne_nil hwh') with ⟨a, ha⟩
      exact ⟨a, List.mem_toFinset.mpr ha⟩
    have hcard256 : ((regionVals img x y w h).toFinset.card : ℝ) ≤ 256 := by
      have := Finset.card_le_univ (regionVals img x y w h).toFinset
      simp only [Finset.card_univ, Fintype.card_fin] at this
      exact_mod_cast this
    have hlogb : Real.logb 2 ((regionVals img x y w h).toFinset.card : ℝ) ≤ 8 := by
      have h256 : Real.logb 2 (256 : ℝ) = 8 := by
        rw [show (256 : ℝ) = 2 ^ (8 : ℕ) by norm_num, Real.logb, Real.log_pow]
        field_simp
      rw [← h256]
      apply Real.logb_le_logb_of_le (by norm_num) _ hcard256
      exact_mod_cast hcard1
    rw [hE]
    calc (∑ v ∈ (regionVals img x y w h).toFinset,
            -(((regionVals img x y w h).count v : ℝ) / ((w * h : ℕ) : ℝ) *
              Real.log (((regionVals img x y w h).count v : ℝ) / ((w * h : ℕ) : ℝ))))
          / Real.log 2
        ≤ Real.log ((regionVals img x y w h).toFinset.card : ℝ) / Real.log 2 :=
          div_le_div_of_nonneg_right hG hlog2.le
      _ = Real.logb 2 ((regionVals img x y w h).toFinset.card : ℝ) := Real.log_div_log
      _ ≤ 8 := hlogb

lemma entropy_eq_zero_of_card_le_one {img : GrayImage} {x y w h : ℕ}
    (h1 : (regionVals img x y w h).toFinset.card ≤ 1) : entropy img x y w h = 0 := by
  rcases Nat.lt_or_ge (regionVals img x y w h).toFinset.card 1 with hc | hc
  · have : (regionVals img x y w h).toFinset = ∅ := by
      rw [← Finset.card_eq_zero]; omega
    rw [entropy, this]
    simp
  · have hcard : (regionVals img x y w h).toFinset.card = 1 := le_antisymm h1 hc
    rcases Finset.card_eq_one.mp hcard with ⟨a, ha⟩
    have hne : regionVals img x y w h ≠ [] := by
      intro h0
      rw [h0] at ha
      simp at ha
      exact absurd ha.symm (Finset.singleton_ne_empty a)
    have hwh : 0 < w * h := by
      have := regionVals_length img x y w h
      rcases Nat.eq_zero_or_pos (w * h) with h0 | h0
      · exact absurd (regionVals_eq_nil h0) hne
      · exact h0
    have hall : ∀ b ∈ regionVals img x y w h, a = b := by
      intro b hb
      have : b ∈ (regionVals img x y w h).toFinset := List.mem_toFinset.mpr hb
      rw [ha] at this
      exact (Finset.mem_singleton.mp this).symm
    have hcount : (regionVals img x y w h).count a = (regionVals img x y w h).length :=
      List.count_eq_length.mpr hall
    rw [entropy, ha, Finset.sum_singleton, hcount, regionVals_length]
    have hN : (0 : ℝ) < ((w * h : ℕ) : ℝ) := by exact_mod_cast hwh
    rw [div_self (ne_of_gt hN)]
    simp

lemma card_le_one_of_entropy_eq_zero {img : GrayImage} {x y w h : ℕ} (hwh : 0 < w * h)
    (he : entropy img x y w h = 0) : (regionVals img x y w h).toFinset.card ≤ 1 := by
  by_contra hgt
  push_neg at hgt
  have hN : (0 : ℝ) < ((w * h : ℕ) : ℝ) := by exact_mod_cast hwh
  have hlog2 : Real.log 2 ≠ 0 := ne_of_gt (Real.log_pos (by norm_num))
  have hterm : ∀ v ∈ (regionVals img x y w h).toFinset,
      (regionVals img x y w h).count v = (regionVals img x y w h).length := by
    intro v hv
    have hc : 0 < (regionVals img x y w h).count v :=
      List.count_pos_iff.mpr (List.mem_toFinset.mp hv)
    have hf0 : (0 : ℝ) < ((regionVals img x y w h).count v : ℝ) / ((w * h : ℕ) : ℝ) := by
      apply div_pos _ hN
      exact_mod_cast hc
    have hf1 : ((regionVals img x y w h).count v : ℝ) / ((w * h : ℕ) : ℝ) ≤ 1 := by
      rw [div_le_one hN]
      have := le_of_le_of_eq (List.count_le_length v (regionVals img x y w h))
        (regionVals_length img x y w h)
      exact_mod_cast this
    have hnonneg : ∀ u ∈ (regionVals img x y w h).toFinset,
        0 ≤ -(((regionVals img x y w h).count u : ℝ) / ((w * h : ℕ) : ℝ) *
          Real.logb 2 (((regionVals img x y w h).count u : ℝ) / ((w * h : ℕ) : ℝ))) := by
      intro u hu
      have hcu : 0 < (regionVals img x y w h).count u :=
        List.count_pos_iff.mpr (List.mem_toFinset.mp hu)
      have hfu0 : (0 : ℝ) < ((regionVals img x y w h).count u : ℝ) / ((w * h : ℕ) : ℝ) := by
        apply div_pos _ hN
        exact_mod_cast hcu
      have hfu1 : ((regionVals img x y w h).count u : ℝ) / ((w * h : ℕ) : ℝ) ≤ 1 := by
        rw [div_le_one hN]
        have := le_of_le_of_eq (List.count_le_length u (regionVals img x y w h))
          (regionVals_length img x y w h)
        exact_mod_cast this
      have hlbu : Real.logb 2 (((regionVals img x y w h).count u : ℝ) / ((w * h : ℕ) : ℝ)) ≤ 0 :=
        Real.logb_nonpos (by norm_num) hfu0.le hfu1
      have := mul_nonpos_of_nonneg_of_nonpos hfu0.le hlbu
      linarith
    have hzero := (Finset.sum_eq_zero_iff_of_nonneg hnonneg).mp (by rw [← entropy]; exact he) v hv
    have hmul : ((regionVals img x y w h).count v : ℝ) / ((w * h : ℕ) : ℝ) *
        Real.logb 2 (((regionVals img x y w h).count v : ℝ) / ((w * h : ℕ) : ℝ)) = 0 := by
      linarith
    have hlb0 : Real.logb 2 (((regionVals img x y w h).count v : ℝ) / ((w * h : ℕ) : ℝ)) = 0 := by
      rcases mul_eq_zero.mp hmul with h0 | h0
      · exact absurd h0 (ne_of_gt hf0)
      · exact h0
    have hlg0 : Real.log (((regionVals img x y w h).count v : ℝ) / ((w * h : ℕ) : ℝ)) = 0 := by
      rw [Real.logb] at hlb0
      rcases div_eq_zero_iff.mp hlb0 with h0 | h0
      · exact h0
      · exact absurd h0 hlog2
    have hf_one : ((regionVals img x y w h).count v : ℝ) / ((w * h : ℕ) : ℝ) = 1 := by
      rcases Real.log_eq_zero.mp hlg0 with h0 | h0 | h0
      · exact absurd h0 (ne_of_gt hf0)
      · exact h0
      · exact absurd h0 (by linarith)
    have hcv : (regionVals img x y w h).count v = w * h := by
      rw [div_eq_one_iff_eq (ne_of_gt hN)] at hf_one
      exact_mod_cast hf_one
    rw [regionVals_length]
    exact hcv
  rcases Finset.one_lt_card.mp hgt with ⟨a, ha, b, hb, hab⟩
  have ha' := List.count_eq_length.mp (hterm a ha)
  have hb' := List.count_eq_length.mp (hterm b hb)
  rcases List.exists_mem_of_ne_nil _ (regionVals_ne_nil hwh) with ⟨c, hc⟩
  exact hab ((ha' c hc).trans (hb' c hc).symm)

lemma entropy_pos_iff {img : GrayImage} {x y w h : ℕ} (hwh : 0 < w * h) :
    0 < entropy img x y w h ↔ 1 < (regionVals img x y w h).toFinset.card := by
  constructor
  · intro hpos
    by_contra hle
    push_neg at hle
    rw [entropy_eq_zero_of_card_le_one hle] at hpos
    exact lt_irrefl 0 hpos
  · intro hgt
    rcases lt_or_eq_of_le (entropy_nonneg img x y w h) with h0 | h0
    · exact h0
    · exact absurd (card_le_one_of_entropy_eq_zero hwh h0.symm) (by omega)

lemma card_le_one_of_uniform {img : GrayImage} {x y w h : ℕ}
    (huni : ∀ i j, i < w → j < h → img.pix (x + i) (y + j) = img.pix x y) :
    (regionVals img x y w h).toFinset.card ≤ 1 := by
  have hsub : (regionVals img x y w h).toFinset ⊆ {img.pix x y} := by
    intro v hv
    rcases mem_regionVals.mp (List.mem_toFinset.mp hv) with ⟨j, hj, i, hi, hpix⟩
    rw [Finset.mem_singleton, ← hpix]
    exact huni i j hi hj
  calc (regionVals img x y w h).toFinset.card
      ≤ ({img.pix x y} : Finset (Fin 256)).card := Finset.card_le_card hsub
    _ = 1 := Finset.card_singleton _

/-
  Stratified sampler (utils.rs paginate).  thread_rng is modelled by two
  explicit parameters: draw k lo hi stands for the k-th gen_range(lo, hi)
  call of this invocation, and shuffle stands for rng.shuffle.  The returned
  HashSet is modelled as a Finset.
-/
def paginate (total : ℕ) (ppt : ℚ) (lim : ℕ)
    (draw : ℕ → ℕ → ℕ → ℕ) (shuffle : List ℕ → List ℕ) : Finset ℕ :=
  let count := (round (1 / ppt)).toNat
  let int := total / count
  let rem := total % count
  let base := (List.range int).map fun page => draw page (page * count) ((page + 1) * count)
  let indexes := if rem ≠ 0 then base ++ [draw int (int * count) total] else base
  let sh := shuffle indexes
  (sh.take (min sh.length lim)).toFinset

/-- Modelled from the spec words of the Stratified Sampler (4.1), for
comparison with the source paginate: segment_count = round(1/density)
contiguous runs each of size total / segment_count, one draw per run, one
draw from the trailing run, shuffle, truncate to limit. -/
def paginateSpec (total : ℕ) (ppt : ℚ) (lim : ℕ)
    (draw : ℕ → ℕ → ℕ → ℕ) (shuffle : List ℕ → List ℕ) : Finset ℕ :=
  let segCount := (round (1 / ppt)).toNat
  let runSize := total / segCount
  let rem := total % segCount
  let base := (List.range segCount).map fun page => draw page (page * runSize) ((page + 1) * runSize)
  let indexes := if rem ≠ 0 then base ++ [draw segCount (segCount * runSize) total] else base
  let sh := shuffle indexes
  (sh.take (min sh.length lim)).toFinset

/-- Outcome of a Rust computation that can hit a panic macro: the panic
aborts the process and never returns an error value to the caller. -/
inductive PanicOr (α : Type) where
  | panicked : PanicOr α
  | ok : α → PanicOr α
deriving DecidableEq

/-- utils.rs chop: validates ppt (panicking when out of range), bypasses
sampling when ppt == 1.0 or lim == 0, and otherwise keeps only the sampled
columns.  The HashSet iteration order of rows.iter() is unspecified in the
source; the model fixes the ascending order, which no claim depends on. -/
def chop (conv : GrayImage) (ppt : ℚ) (lim : ℕ)
    (draw : ℕ → ℕ → ℕ → ℕ) (shuffle : List ℕ → List ℕ) : PanicOr GrayImage :=
  if ppt < 0 ∨ 1 < ppt then .panicked
  else if ppt = 1 ∨ lim = 0 then .ok conv
  else
    let rows := (paginate conv.width ppt lim draw shuffle).sort (· ≤ ·)
    .ok ⟨rows.length, conv.height, fun x y => conv.pix (rows.getD x 0) y⟩

/-- The scale factor computed by utils.rs convert from the pre-resize
dimensions: longest dimension over the size cap when a resize happens,
1.0 otherwise. -/
def mulOf (w h size : ℕ) : ℚ :=
  if size < w ∨ size < h then (if h < w then (w : ℚ) / (size : ℚ) else (h : ℚ) / (size : ℚ))
  else 1

/-- utils.rs convert: returns the scale factor and the working buffer.
Grayscale conversion is implicit in the GrayImage model; the Lanczos3
resampling is modelled by an arbitrary fixed function parameter resizeF,
since no claim depends on the resampled pixel values. -/
def convert (resizeF : GrayImage → ℕ → GrayImage) (im : GrayImage) (size : ℕ) :
    ℚ × GrayImage :=
  (mulOf im.width im.height size,
   if mulOf im.width im.height size ≠ 1 then resizeF im size else im)

/-- The final projection in utils.rs scan: (border as f32 * mul) as u32,
i.e. multiply by the scale factor and truncate toward zero (the cast
saturates at 0 for negative values, and the product here is nonnegative). -/
def truncMul (border : ℕ) (mul : ℚ) : ℕ :=
  (⌊(border : ℚ) * mul⌋).toNat

/-- image::imageops::rotate270 (270 degrees clockwise = 90 degrees
counterclockwise): dimensions swap and dst(x, y) = src(w - 1 - y, x). -/
def rotate270 (img : GrayImage) : GrayImage :=
  ⟨img.height, img.width, fun x y => img.pix (img.width - 1 - y) x⟩

/-- The locate-start loop of utils.rs scan: the first center in
(border, height) whose region from row border of height center has positive
entropy; border + 1 when there is none. -/
noncomputable def locateStart (strips : GrayImage) (border w height : ℕ) : ℕ :=
  match (List.range' (border + 1) (height - (border + 1))).find?
      (fun center => decide (0 < entropy strips 0 border w center)) with
  | some c => c
  | none => border + 1

/-- Modelled from the spec words of the locate-start step (4.4.3a), for
comparison with the source locateStart: the entropy region height is
center - border instead of center. -/
noncomputable def locateStartSpec (strips : GrayImage) (border w height : ℕ) : ℕ :=
  match (List.range' (border + 1) (height - (border + 1))).find?
      (fun center => decide (0 < entropy strips 0 border w (center - border))) with
  | some c => c
  | none => border + 1

/-- The locate-candidate loop of utils.rs scan: walk centers from height - 1
down to start, tracking the minimal entropy ratio (accumulator delta seeded
with thres) and the row sub where it was attained (seeded with 0). -/
noncomputable def findSub (strips : GrayImage) (border w start height : ℕ) (thres : ℝ) :
    ℝ × ℕ :=
  ((List.range' start (height - start)).reverse).foldl
    (fun acc center =>
      let upper := entropy strips 0 border w (center - border)
      let lower := entropy strips 0 center w (center - border)
      let diff := if lower ≠ 0 then upper / lower else acc.1
      if diff < acc.1 ∧ diff < thres then (diff, center) else acc)
    (thres, 0)

lemma findSub_snd (strips : GrayImage) (border w start height : ℕ) (thres : ℝ) :
    (findSub strips border w start height thres).2 = 0 ∨
      (start ≤ (findSub strips border w start height thres).2 ∧
        (findSub strips border w start height thres).2 < height) := by
  rw [findSub]
  have hmem : ∀ c ∈ (List.range' start (height - start)).reverse, start ≤ c ∧ c < height := by
    intro c hc
    rw [List.mem_reverse] at hc
    rcases List.mem_range'.mp hc with ⟨i, hi, hc'⟩
    omega
  generalize hl : (List.range' start (height - start)).reverse = l at hmem
  clear hl
  have hgen : ∀ (l : List ℕ), (∀ c ∈ l, start ≤ c ∧ c < height) →
      ∀ acc : ℝ × ℕ, (acc.2 = 0 ∨ (start ≤ acc.2 ∧ acc.2 < height)) →
      ((l.foldl
        (fun acc center =>
          let upper := entropy strips 0 border w (center - border)
          let lower := entropy strips 0 center w (center - border)
          let diff := if lower ≠ 0 then upper / lower else acc.1
          if diff < acc.1 ∧ diff < thres then (diff, center) else acc)
        acc).2 = 0 ∨
      (start ≤ (l.foldl
        (fun acc center =>
          let upper := entropy strips 0 border w (center - border)
          let lower := entropy strips 0 center w (center - border)
          let diff := if lower ≠ 0 then upper / lower else acc.1
          if diff < acc.1 ∧ diff < thres then (diff, center) else acc)
        acc).2 ∧ (l.foldl
        (fun acc center =>
          let upper := entropy strips 0 border w (center - border)
          let lower := entropy strips 0 center w (center - border)
          let diff := if lower ≠ 0 then upper / lower else acc.1
          if diff < acc.1 ∧ diff < thres then (diff, center) else acc)
        acc).2 < height)) := by
    intro l
    induction l with
    | nil => intro _ acc hacc; exact hacc
    | cons c rest ih =>
      intro hall acc hacc
      rw [List.foldl_cons]
      apply ih (fun d hd => hall d (List.mem_cons_of_mem c hd))
      by_cases hcond : (if entropy strips 0 c w (c - border) ≠ 0 then
          entropy strips 0 border w (c - border) / entropy strips 0 c w (c - border)
          else acc.1) < acc.1 ∧
          (if entropy strips 0 c w (c - border) ≠ 0 then
          entropy strips 0 border w (c - border) / entropy strips 0 c w (c - border)
          else acc.1) < thres
      · simp only [hcond, if_true]
        right
        exact hall c (List.mem_cons_self c rest)
      · simp only [hcond, if_false]
        exact hacc
  exact hgen _ hmem (thres, 0) (Or.inl rfl)

lemma locateStart_ge (strips : GrayImage) (border w height : ℕ) :
    border + 1 ≤ locateStart strips border w height := by
  rw [locateStart]
  rcases hf : (List.range' (border + 1) (height - (border + 1))).find?
      (fun center => decide (0 < entropy strips 0 border w center)) with _ | c
  · exact le_refl _
  · show border + 1 ≤ c
    have hc := List.mem_of_find?_eq_some hf
    rcases List.mem_range'.mp hc with ⟨i, hi, hc'⟩
    omega

/-- The refinement loop of utils.rs scan for one edge: locate start, locate
the candidate sub, stop when no candidate or no progress, otherwise advance
the border (and repeat only when deep).  Terminates because each accepted
candidate strictly increases border while staying below height. -/
noncomputable def scanLoop (strips : GrayImage) (w height : ℕ) (thres : ℝ) (deep : Bool)
    (border : ℕ) : ℕ :=
  if h1 : (findSub strips border w (locateStart strips border w height) height thres).2 = 0 ∨
      border = (findSub strips border w (locateStart strips border w height) height thres).2 then
    border
  else if deep then
    scanLoop strips w height thres deep
      (findSub strips border w (locateStart strips border w height) height thres).2
  else
    (findSub strips border w (locateStart strips border w height) height thres).2
termination_by height - border
decreasing_by
  push_neg at h1
  rcases findSub_snd strips border w (locateStart strips border w height) height thres with
    h0 | ⟨hs, hh⟩
  · exact absurd h0 h1.1
  · have hg := locateStart_ge strips border w height
    omega

/-- One pass of the for-side loop of utils.rs scan over the remaining side
indices: chop the working buffer into strips, compute the search height
round(depth * h), run the refinement loop from border 0, record the scaled
border, and rotate the working buffer except after the last side. -/
noncomputable def scanSides (mul : ℚ) (depth : ℚ) (thres : ℝ) (ppt : ℚ) (lim : ℕ)
    (deep : Bool) (draw : ℕ → ℕ → ℕ → ℕ) (shuffle : List ℕ → List ℕ) :
    List ℕ → GrayImage → PanicOr (List ℕ)
  | [], _ => .ok []
  | side :: rest, conv =>
    match chop conv ppt lim draw shuffle with
    | .panicked => .panicked
    | .ok strips =>
      match scanSides mul depth thres ppt lim deep draw shuffle rest
          (if side ≠ 3 then rotate270 conv else conv) with
      | .panicked => .panicked
      | .ok borders =>
        .ok (truncMul
          (scanLoop strips strips.width ((round (depth * (strips.height : ℚ))).toNat) thres deep 0)
          mul :: borders)

/-- utils.rs scan: convert the frame, then process the four sides. -/
noncomputable def scan (resizeF : GrayImage → ℕ → GrayImage) (im : GrayImage) (size : ℕ)
    (depth : ℚ) (thres : ℝ) (ppt : ℚ) (lim : ℕ) (deep : Bool)
    (draw : ℕ → ℕ → ℕ → ℕ) (shuffle : List ℕ → List ℕ) : PanicOr (List ℕ) :=
  scanSides (convert resizeF im size).1 depth thres ppt lim deep draw shuffle
    [0, 1, 2, 3] (convert resizeF im size).2

/-- Borders location (lib.rs Borders struct). -/
structure Borders where
  top : ℕ
  right : ℕ
  bottom : ℕ
  left : ℕ
deriving DecidableEq

/-- The aggregation loop of lib.rs enimda: the borders vector starts as
[0, 0, 0, 0] and, for each (index, variant), every side is overwritten when
index == 0 or the variant value is strictly smaller. -/
def aggregate (variants : List (Fin 4 → ℕ)) : Fin 4 → ℕ :=
  variants.enum.foldl
    (fun acc iv side => if iv.1 = 0 ∨ iv.2 side < acc side then iv.2 side else acc side)
    (fun _ => 0)

/-- The final assembly of lib.rs enimda: the aggregated vector becomes the
Borders struct in the order top, right, bottom, left. -/
def enimdaCombine (variants : List (Fin 4 → ℕ)) : Borders :=
  ⟨aggregate variants 0, aggregate variants 1, aggregate variants 2, aggregate variants 3⟩

/-- Propagation of a panic from the per-frame scans through the frame loop
of lib.rs enimda. -/
def seqPanic {α : Type} : List (PanicOr α) → PanicOr (List α)
  | [] => .ok []
  | .panicked :: _ => .panicked
  | .ok a :: rest =>
    match seqPanic rest with
    | .panicked => .panicked
    | .ok l => .ok (a :: l)

/-- The GIF path of lib.rs enimda: each decoded frame is scanned when the
frame limit is 0 or its index is in the sampled frameset (produced by the
slice helper, which is referenced by lib.rs but not present in utils.rs;
it is therefore left as the abstract frameset parameter), and the per-frame
vectors are folded with the element-wise strict-minimum loop. -/
noncomputable def enimdaGif (resizeF : GrayImage → ℕ → GrayImage) (frames : List GrayImage)
    (framesLimit : ℕ) (frameset : Finset ℕ) (size : ℕ) (depth : ℚ) (thres : ℝ)
    (ppt : ℚ) (lim : ℕ) (deep : Bool)
    (draw : ℕ → ℕ → ℕ → ℕ) (shuffle : List ℕ → List ℕ) : PanicOr Borders :=
  let selected := ((frames.enum.filter fun p => framesLimit = 0 ∨ p.1 ∈ frameset).map Prod.snd)
  match seqPanic (selected.map fun im => scan resizeF im size depth thres ppt lim deep draw shuffle) with
  | .panicked => .panicked
  | .ok variants => .ok (enimdaCombine (variants.map fun l => fun i => l.getD (i : ℕ) 0))

/-- A small constant (uniform) test image. -/
def constImg : GrayImage := ⟨2, 2, fun _ _ => 7⟩

/-- Claim C3: for every rectangular region of an 8-bit luma buffer, entropy
is at least 0 and at most log2(256) = 8, and a region whose pixels all have
a single luma value has entropy exactly 0. -/
theorem C3_entropy_bounds (img : GrayImage) (x y w h : ℕ) :
    0 ≤ entropy img x y w h ∧ entropy img x y w h ≤ 8 ∧
      ((∀ i j, i < w → j < h → img.pix (x + i) (y + j) = img.pix x y) →
        entropy img x y w h = 0) :=
  ⟨entropy_nonneg img x y w h, entropy_le_eight img x y w h,
    fun huni => entropy_eq_zero_of_card_le_one (card_le_one_of_uniform huni)⟩

/-- Witness for C3 at a concrete uniform 2 x 2 region. -/
theorem C3_entropy_bounds_witness :
    0 ≤ entropy constImg 0 0 2 2 ∧ entropy constImg 0 0 2 2 ≤ 8 ∧
      entropy constImg 0 0 2 2 = 0 :=
  ⟨(C3_entropy_bounds constImg 0 0 2 2).1, (C3_entropy_bounds constImg 0 0 2 2).2.1,
    (C3_entropy_bounds constImg 0 0 2 2).2.2 (fun _ _ _ _ => rfl)⟩

lemma foldl_min_le_init (l : List ℕ) (a : ℕ) : l.foldl min a ≤ a := by
  induction l generalizing a with
  | nil => exact le_refl a
  | cons b rest ih =>
    rw [List.foldl_cons]
    exact le_trans (ih (min a b)) (min_le_left a b)

lemma foldl_min_le_mem (l : List ℕ) (a : ℕ) : ∀ b ∈ l, l.foldl min a ≤ b := by
  induction l generalizing a with
  | nil => intro b hb; exact absurd hb (List.not_mem_nil b)
  | cons c rest ih =>
    intro b hb
    rw [List.foldl_cons]
    rcases List.mem_cons.mp hb with rfl | hb'
    · exact le_trans (foldl_min_le_init rest (min a b)) (min_le_right a b)
    · exact ih (min a c) b hb'

lemma foldl_min_eq_init_or_mem (l : List ℕ) (a : ℕ) :
    l.foldl min a = a ∨ l.foldl min a ∈ l := by
  induction l generalizing a with
  | nil => exact Or.inl rfl
  | cons c rest ih =>
    rw [List.foldl_cons]
    rcases ih (min a c) with h | h
    · rcases Nat.le_total a c with hac | hca
      · left
        rw [h, min_eq_left hac]
      · right
        rw [h, min_eq_right hca]
        exact List.mem_cons_self c rest
    · exact Or.inr (List.mem_cons_of_mem c h)

lemma agg_fold_enumFrom (side : Fin 4) :
    ∀ (vs : List (Fin 4 → ℕ)) (n : ℕ), 1 ≤ n → ∀ acc : Fin 4 → ℕ,
    ((List.enumFrom n vs).foldl
      (fun acc iv side => if iv.1 = 0 ∨ iv.2 side < acc side then iv.2 side else acc side)
      acc) side
    = (vs.map fun u => u side).foldl min (acc side) := by
  intro vs
  induction vs with
  | nil => intro n _ acc; rfl
  | cons u rest ih =>
    intro n hn acc
    rw [List.enumFrom_cons, List.foldl_cons, List.map_cons, List.foldl_cons]
    rw [ih (n + 1) (by omega)]
    congr 1
    have hn0 : ¬(n = 0) := by omega
    simp only [hn0, false_or]
    split_ifs <;> omega

lemma aggregate_cons (v : Fin 4 → ℕ) (vs : List (Fin 4 → ℕ)) (side : Fin 4) :
    aggregate (v :: vs) side = (vs.map fun u => u side).foldl min (v side) := by
  show ((List.enumFrom 0 (v :: vs)).foldl
      (fun acc iv side => if iv.1 = 0 ∨ iv.2 side < acc side then iv.2 side else acc side)
      (fun _ => 0)) side = _
  rw [List.enumFrom_cons, List.foldl_cons]
  rw [agg_fold_enumFrom side vs 1 (by omega)]
  congr 1

/-- Claim C2: for a nonempty collection of per-frame border vectors, each
edge of the aggregated result is at most the same edge of every frame and
is attained by one of the frames (element-wise minimum). -/
theorem C2_aggregate_min (variants : List (Fin 4 → ℕ)) (hne : variants ≠ []) (side : Fin 4) :
    (∀ v ∈ variants, aggregate variants side ≤ v side) ∧
      (∃ v ∈ variants, aggregate variants side = v side) := by
  rcases variants with _ | ⟨v, vs⟩
  · exact absurd rfl hne
  · rw [aggregate_cons]
    constructor
    · intro u hu
      rcases List.mem_cons.mp hu with rfl | hu'
      · exact foldl_min_le_init _ _
      · exact foldl_min_le_mem _ _ (u side) (List.mem_map_of_mem (fun z => z side) hu')
    · rcases foldl_min_eq_init_or_mem (vs.map fun u => u side) (v side) with h | h
      · exact ⟨v, List.mem_cons_self v vs, h⟩
      · rcases List.mem_map.mp h with ⟨u, hu, hval⟩
        exact ⟨u, List.mem_cons_of_mem v hu, hval.symm⟩

/-- Witness for C2 at a concrete two-frame collection. -/
theorem C2_aggregate_min_witness :
    ([(fun _ => 5 : Fin 4 → ℕ), (fun _ => 3 : Fin 4 → ℕ)] ≠ []) ∧
      ((∀ v ∈ [(fun _ => 5 : Fin 4 → ℕ), (fun _ => 3 : Fin 4 → ℕ)],
          aggregate [(fun _ => 5 : Fin 4 → ℕ), (fun _ => 3 : Fin 4 → ℕ)] 0 ≤ v 0) ∧
        (∃ v ∈ [(fun _ => 5 : Fin 4 → ℕ), (fun _ => 3 : Fin 4 → ℕ)],
          aggregate [(fun _ => 5 : Fin 4 → ℕ), (fun _ => 3 : Fin 4 → ℕ)] 0 = v 0)) :=
  ⟨List.cons_ne_nil _ _,
    C2_aggregate_min [(fun _ => 5 : Fin 4 → ℕ), (fun _ => 3 : Fin 4 → ℕ)]
      (List.cons_ne_nil _ _) 0⟩

/-- Claim C10: when no frame is selected for scanning (nonzero frame limit
and an empty sampled frameset, so the list of per-frame border vectors is
empty), the entry point returns the all-zero Border Report rather than an
error: the minimum fold leaves the initial all-zero vector unchanged. -/
theorem C10_empty_selection (resizeF : GrayImage → ℕ → GrayImage) (frames : List GrayImage)
    (framesLimit : ℕ) (size : ℕ) (depth : ℚ) (thres : ℝ) (ppt : ℚ) (lim : ℕ) (deep : Bool)
    (draw : ℕ → ℕ → ℕ → ℕ) (shuffle : List ℕ → List ℕ)
    (hflim : framesLimit ≠ 0) :
    enimdaGif resizeF frames framesLimit ∅ size depth thres ppt lim deep draw shuffle
      = .ok ⟨0, 0, 0, 0⟩ := by
  rw [enimdaGif]
  have hfil : (frames.enum.filter fun p => decide (framesLimit = 0 ∨ p.1 ∈ (∅ : Finset ℕ))) = [] := by
    apply List.filter_eq_nil.mpr
    intro p _
    simp [hflim]
  simp only [hfil, List.map_nil, seqPanic]
  rfl

/-- Witness for C10 at a concrete instantiation. -/
theorem C10_empty_selection_witness :
    (5 : ℕ) ≠ 0 ∧
      enimdaGif (fun g _ => g) [constImg] 5 ∅ 10 (1/4) (1/2) (1/2) 3 true
        (fun _ lo _ => lo) id = .ok ⟨0, 0, 0, 0⟩ :=
  ⟨by decide, C10_empty_selection _ _ _ _ _ _ _ _ _ _ _ (by decide)⟩

/-- A 1-column, 4-row strip: rows 0..2 hold luma 0 and row 3 holds luma 5. -/
def cImg : GrayImage := ⟨1, 4, fun _ y => if y = 3 then (5 : Fin 256) else 0⟩

/-- Counterexample for C5: with the sampling density out of range, chop hits
the panic macro (a process abort) instead of returning an InvalidParameter
error to the caller. -/
theorem C5_counterexample :
    chop cImg (3 / 2) 5 (fun _ lo _ => lo) id = PanicOr.panicked := by
  rw [chop]
  rw [if_pos]
  right
  norm_num

/-- Claim C5 (amended): for every ppt outside [0, 1], chop panics (aborts
the process) rather than returning an InvalidParameter error; the depth
fraction is not validated at all by scan. -/
theorem C5_out_of_range_panics (conv : GrayImage) (ppt : ℚ) (lim : ℕ)
    (draw : ℕ → ℕ → ℕ → ℕ) (shuffle : List ℕ → List ℕ)
    (hppt : ppt < 0 ∨ 1 < ppt) :
    chop conv ppt lim draw shuffle = PanicOr.panicked := by
  rw [chop, if_pos hppt]

/-- Witness for C5 at a concrete negative density. -/
theorem C5_out_of_range_panics_witness :
    ((-1 : ℚ) < 0 ∨ (1 : ℚ) < -1) ∧
      chop constImg (-1) 0 (fun _ lo _ => lo) id = PanicOr.panicked :=
  ⟨Or.inl (by norm_num),
    C5_out_of_range_panics constImg (-1) 0 (fun _ lo _ => lo) id (Or.inl (by norm_num))⟩

/-- Counterexample for C6: at raw border 1 with scale factor 3/2 (a 3 x 2
frame capped at size 2), the code truncates 1.5 down to 1, while rounding
to the nearest integer pixel would give 2. -/
theorem C6_counterexample :
    truncMul 1 (mulOf 3 2 2) = 1 ∧ (round ((1 : ℚ) * mulOf 3 2 2)).toNat = 2 := by
  constructor
  · norm_num [truncMul, mulOf]
  · rw [show ((1 : ℚ) * mulOf 3 2 2) = 3 / 2 by norm_num [mulOf]]
    rw [round_eq]
    norm_num
    rfl

/-- Claim C6 (amended): the final per-edge offset is the raw working-buffer
border multiplied by the frame scale factor and truncated toward zero
(floor), characterized by the floor inequalities. -/
theorem C6_trunc_characterization (border w h size : ℕ) :
    ((truncMul border (mulOf w h size) : ℚ) ≤ (border : ℚ) * mulOf w h size) ∧
      ((border : ℚ) * mulOf w h size < (truncMul border (mulOf w h size) : ℚ) + 1) := by
  have hmul : 0 ≤ mulOf w h size := by
    rw [mulOf]
    split_ifs
    · positivity
    · positivity
    · norm_num
  have hprod : (0 : ℚ) ≤ (border : ℚ) * mulOf w h size := by positivity
  have hfloor : ((truncMul border (mulOf w h size)) : ℚ)
      = ((⌊(border : ℚ) * mulOf w h size⌋ : ℤ) : ℚ) := by
    rw [truncMul]
    exact_mod_cast congrArg (fun z : ℤ => (z : ℚ))
      (Int.toNat_of_nonneg (Int.floor_nonneg.mpr hprod))
  rw [hfloor]
  exact ⟨Int.floor_le _, Int.lt_floor_add_one _⟩

/-- Claim C7: chop bypasses sampling and keeps the whole working buffer both
when the density is 1.0 (for every limit) and when the limit is 0 (for every
in-range density). -/
theorem C7_bypass (conv : GrayImage) (ppt : ℚ) (lim : ℕ)
    (draw : ℕ → ℕ → ℕ → ℕ) (shuffle : List ℕ → List ℕ)
    (h0 : 0 ≤ ppt) (h1 : ppt ≤ 1) :
    chop conv ppt 0 draw shuffle = PanicOr.ok conv ∧
      chop conv 1 lim draw shuffle = PanicOr.ok conv := by
  constructor
  · rw [chop, if_neg (by push_neg; exact ⟨h0, h1⟩), if_pos (Or.inr rfl)]
  · rw [chop, if_neg (by push_neg; norm_num), if_pos (Or.inl rfl)]

/-- Witness for C7 at a concrete density and limit. -/
theorem C7_bypass_witness :
    chop cImg (1 / 2) 0 (fun _ lo _ => lo) id = PanicOr.ok cImg ∧
      chop cImg 1 7 (fun _ lo _ => lo) id = PanicOr.ok cImg :=
  ⟨(C7_bypass cImg (1 / 2) 7 (fun _ lo _ => lo) id (by norm_num) (by norm_num)).1,
    (C7_bypass cImg (1 / 2) 7 (fun _ lo _ => lo) id (by norm_num) (by norm_num)).2⟩

lemma chop_lim_zero (conv : GrayImage) (ppt : ℚ)
    (draw : ℕ → ℕ → ℕ → ℕ) (shuffle : List ℕ → List ℕ) :
    chop conv ppt 0 draw shuffle
      = if ppt < 0 ∨ 1 < ppt then PanicOr.panicked else PanicOr.ok conv := by
  by_cases hv : ppt < 0 ∨ 1 < ppt
  · rw [chop, if_pos hv, if_pos hv]
  · rw [chop, if_neg hv, if_neg hv, if_pos (Or.inr rfl)]

lemma scanSides_lim_zero (mul depth : ℚ) (thres : ℝ) (ppt : ℚ) (deep : Bool)
    (d₁ d₂ : ℕ → ℕ → ℕ → ℕ) (s₁ s₂ : List ℕ → List ℕ) :
    ∀ (sides : List ℕ) (conv : GrayImage),
    scanSides mul depth thres ppt 0 deep d₁ s₁ sides conv
      = scanSides mul depth thres ppt 0 deep d₂ s₂ sides conv := by
  intro sides
  induction sides with
  | nil => intro conv; rfl
  | cons side rest ih =>
    intro conv
    rw [scanSides, scanSides]
    rw [chop_lim_zero conv ppt d₁ s₁, chop_lim_zero conv ppt d₂ s₂]
    by_cases hv : ppt < 0 ∨ 1 < ppt
    · rw [if_pos hv]
    · rw [if_neg hv]
      show (match scanSides mul depth thres ppt 0 deep d₁ s₁ rest
          (if side ≠ 3 then rotate270 conv else conv) with
        | PanicOr.panicked => PanicOr.panicked
        | PanicOr.ok borders =>
          PanicOr.ok (truncMul
            (scanLoop conv conv.width ((round (depth * (conv.height : ℚ))).toNat) thres deep 0)
            mul :: borders)) = _
      rw [ih]

/-- Claim C8: with the column sample limit 0 (sampling off) and the frame
limit 0 (all frames used), the scan result and the aggregated Border Report
do not depend on the random draws, the shuffle, or the sampled frameset, so
two runs on the same input return identical results. -/
theorem C8_determinism (resizeF : GrayImage → ℕ → GrayImage) (im : GrayImage) (size : ℕ)
    (depth : ℚ) (thres : ℝ) (ppt : ℚ) (deep : Bool) (frames : List GrayImage)
    (fset₁ fset₂ : Finset ℕ) (d₁ d₂ : ℕ → ℕ → ℕ → ℕ) (s₁ s₂ : List ℕ → List ℕ) :
    scan resizeF im size depth thres ppt 0 deep d₁ s₁
      = scan resizeF im size depth thres ppt 0 deep d₂ s₂ ∧
    enimdaGif resizeF frames 0 fset₁ size depth thres ppt 0 deep d₁ s₁
      = enimdaGif resizeF frames 0 fset₂ size depth thres ppt 0 deep d₂ s₂ := by
  constructor
  · rw [scan, scan]
    exact scanSides_lim_zero _ _ _ _ _ d₁ d₂ s₁ s₂ _ _
  · rw [enimdaGif, enimdaGif]
    have hfil : ∀ fset : Finset ℕ,
        (frames.enum.filter fun p => decide ((0 : ℕ) = 0 ∨ p.1 ∈ fset)) = frames.enum := by
      intro fset
      apply List.filter_eq_self.mpr
      intro p _
      simp
    rw [hfil fset₁, hfil fset₂]
    have hmap : (frames.enum.map Prod.snd).map
          (fun im => scan resizeF im size depth thres ppt 0 deep d₁ s₁)
        = (frames.enum.map Prod.snd).map
          (fun im => scan resizeF im size depth thres ppt 0 deep d₂ s₂) := by
      apply List.map_congr_left
      intro g _
      rw [scan, scan]
      exact scanSides_lim_zero _ _ _ _ _ d₁ d₂ s₁ s₂ _ _
    rw [hmap]

lemma findSub_zero_height (strips : GrayImage) (border w start : ℕ) (thres : ℝ) :
    findSub strips border w start 0 thres = (thres, 0) := by
  rw [findSub]
  simp [Nat.zero_sub]

lemma scanLoop_lt (strips : GrayImage) (w height : ℕ) (thres : ℝ) (deep : Bool) :
    ∀ n border, height - border ≤ n → border < height →
      scanLoop strips w height thres deep border < height := by
  intro n
  induction n with
  | zero => intro border hn hb; omega
  | succ n ih =>
    intro border hn hb
    rw [scanLoop]
    rcases findSub_snd strips border w (locateStart strips border w height) height thres with
      hz | ⟨hs, hh⟩
    · rw [dif_pos (Or.inl hz)]
      exact hb
    · have hg := locateStart_ge strips border w height
      by_cases h1 : (findSub strips border w (locateStart strips border w height) height thres).2
            = 0 ∨
          border = (findSub strips border w (locateStart strips border w height) height thres).2
      · rw [dif_pos h1]
        exact hb
      · rw [dif_neg h1]
        by_cases hd : deep
        · rw [if_pos hd]
          exact ih _ (by omega) hh
        · rw [if_neg hd]
          exact hh

lemma scanLoop_zero_height (strips : GrayImage) (w : ℕ) (thres : ℝ) (deep : Bool)
    (border : ℕ) : scanLoop strips w 0 thres deep border = border := by
  rw [scanLoop]
  rw [dif_pos (Or.inl (by rw [findSub_zero_height]))]

/-- Claim C9: the raw border row of a single-edge scan is strictly below the
search height round(depth * strip-height) whenever that height is positive,
and is 0 when the search height is 0; in particular border < search height
is an invariant of the refinement loop. -/
theorem C9_border_invariant (strips : GrayImage) (w : ℕ) (thres : ℝ) (deep : Bool)
    (depth : ℚ) :
    (0 < (round (depth * (strips.height : ℚ))).toNat →
      scanLoop strips w ((round (depth * (strips.height : ℚ))).toNat) thres deep 0
        < (round (depth * (strips.height : ℚ))).toNat) ∧
    ((round (depth * (strips.height : ℚ))).toNat = 0 →
      scanLoop strips w ((round (depth * (strips.height : ℚ))).toNat) thres deep 0 = 0) := by
  constructor
  · intro hpos
    exact scanLoop_lt strips w _ thres deep _ 0 (le_refl _) hpos
  · intro h0
    rw [h0]
    exact scanLoop_zero_height strips w thres deep 0

/-- Witness for C9 at a concrete strip with depth 1 (search height 4). -/
theorem C9_border_invariant_witness :
    0 < (round ((1 : ℚ) * (cImg.height : ℚ))).toNat ∧
      scanLoop cImg 1 ((round ((1 : ℚ) * (cImg.height : ℚ))).toNat) (1 / 2) true 0
        < (round ((1 : ℚ) * (cImg.height : ℚ))).toNat :=
  ⟨by norm_num [cImg, round_eq], (C9_border_invariant cImg 1 (1 / 2) true 1).1
    (by norm_num [cImg, round_eq])⟩

lemma find?_range'_first {p : ℕ → Bool} :
    ∀ (n s c : ℕ), (List.range' s n).find? p = some c →
      ∀ d, s ≤ d → d < c → p d = false := by
  intro n
  induction n with
  | zero =>
    intro s c h
    simp at h
  | succ n ih =>
    intro s c h d hsd hdc
    have hcons : List.range' s (n + 1) = s :: List.range' (s + 1) n := rfl
    rw [hcons] at h
    cases hps : p s
    · rw [List.find?_cons_of_neg _ (by simp [hps])] at h
      rcases Nat.eq_or_lt_of_le hsd with rfl | hlt
      · exact hps
      · exact ih (s + 1) c h d hlt hdc
    · rw [List.find?_cons_of_pos _ (by simp [hps])] at h
      injection h with h
      exact (by omega : False).elim

/-- Claim C1 (amended): in the locate-start step, start is the first center
in (border, search height) at which the entropy of the region starting at
row border with height center (not center - border) is strictly positive,
and start = border + 1 when no such center exists. -/
theorem C1_locate_start (strips : GrayImage) (border w height : ℕ) :
    (locateStart strips border w height = border + 1 ∧
      ∀ c, border + 1 ≤ c → c < height → ¬(0 < entropy strips 0 border w c)) ∨
    (border + 1 ≤ locateStart strips border w height ∧
      locateStart strips border w height < height ∧
      0 < entropy strips 0 border w (locateStart strips border w height) ∧
      ∀ c, border + 1 ≤ c → c < locateStart strips border w height →
        ¬(0 < entropy strips 0 border w c)) := by
  rcases hf : (List.range' (border + 1) (height - (border + 1))).find?
      (fun center => decide (0 < entropy strips 0 border w center)) with _ | c
  · left
    constructor
    · rw [locateStart, hf]
    · intro c hc1 hc2
      have hmem : c ∈ List.range' (border + 1) (height - (border + 1)) := by
        rw [List.mem_range'_1]
        omega
      have hnp := List.find?_eq_none.mp hf c hmem
      simpa using hnp
  · have hls : locateStart strips border w height = c := by
      rw [locateStart, hf]
    right
    have hmem := List.mem_of_find?_eq_some hf
    rcases List.mem_range'.mp hmem with ⟨i, hi, hceq⟩
    have hp := List.find?_some hf
    refine ⟨by omega, by omega, by rw [hls]; simpa using hp, ?_⟩
    intro d hd1 hd2
    rw [hls] at hd2
    have hfd := find?_range'_first _ _ _ hf d hd1 hd2
    simpa using hfd

/-- Counterexample for C1: on a 1 x 4 strip with content only in row 3 and
current border 1, the source locate-start (region height center) finds
start 3, while the spec formula (region height center - border) finds no
positive-entropy center and yields start 2. -/
theorem C1_counterexample :
    locateStart cImg 1 1 4 = 3 ∧ locateStartSpec cImg 1 1 4 = 2 := by
  have e1 : ¬(0 < entropy cImg 0 1 1 2) := by
    rw [entropy_pos_iff (by norm_num)]
    decide
  have e2 : 0 < entropy cImg 0 1 1 3 := by
    rw [entropy_pos_iff (by norm_num)]
    decide
  have e3 : ¬(0 < entropy cImg 0 1 1 1) := by
    rw [entropy_pos_iff (by norm_num)]
    decide
  constructor
  · rw [locateStart]
    have hr : List.range' (1 + 1) (4 - (1 + 1)) = [2, 3] := rfl
    rw [hr]
    rw [List.find?_cons_of_neg _ (by simpa using e1)]
    rw [List.find?_cons_of_pos _ (by simpa using e2)]
  · rw [locateStartSpec]
    have hr : List.range' (1 + 1) (4 - (1 + 1)) = [2, 3] := rfl
    rw [hr]
    rw [List.find?_cons_of_neg _ (by simpa using e3)]
    rw [List.find?_cons_of_neg _ (by simpa using e1)]
    rfl

/-- Counterexample for C4: with total 10, density 1/4 and a large limit, the
source paginate draws one index per run of size round(1/density) = 4 (so
10/4 = 2 full runs plus a trailing run: 3 draws), while the spec text
prescribes round(1/density) = 4 runs of size 10/4 = 2 (so 5 draws); with the
draw stream returning each range lower bound and the identity shuffle the two
resulting index sets differ. -/
theorem C4_counterexample :
    paginate 10 (1 / 4) 100 (fun _ lo _ => lo) id
      ≠ paginateSpec 10 (1 / 4) 100 (fun _ lo _ => lo) id := by
  have hc : (round ((1 : ℚ) / (1 / 4))).toNat = 4 := by
    rw [round_eq]
    norm_num
    rfl
  simp only [paginate, paginateSpec, hc]
  decide

lemma count_pos_of_ppt (ppt : ℚ) (h0 : 0 < ppt) (h1 : ppt < 1) :
    1 ≤ (round (1 / ppt)).toNat := by
  have hgt : (1 : ℚ) < 1 / ppt := one_lt_one_div h0 h1
  have hr : (1 : ℤ) ≤ round (1 / ppt) := by
    rw [round_eq]
    rw [Int.le_floor]
    push_cast
    linarith
  omega

/-- Claim C4 (amended): for density in (0,1) and positive limit, with a draw
stream that respects its range and a permutation shuffle, the sampler draws
one index from each of the total / round(1/density) full runs of size
round(1/density) plus one from the nonempty trailing run, shuffles and
truncates to the limit: all returned indices lie in [0, total) and the set
size is min(full-runs + trailing, limit). -/
theorem C4_paginate_shape (total : ℕ) (ppt : ℚ) (lim : ℕ) (draw : ℕ → ℕ → ℕ → ℕ)
    (shuffle : List ℕ → List ℕ)
    (h0 : 0 < ppt) (h1 : ppt < 1) (hlim : 0 < lim)
    (hdraw : ∀ k lo hi, lo < hi → lo ≤ draw k lo hi ∧ draw k lo hi < hi)
    (hshuffle : ∀ l, (shuffle l).Perm l) :
    (∀ i ∈ paginate total ppt lim draw shuffle, i < total) ∧
    (paginate total ppt lim draw shuffle).card
      = min (total / (round (1 / ppt)).toNat
          + (if total % (round (1 / ppt)).toNat = 0 then 0 else 1)) lim := by
  have hcount : 1 ≤ (round (1 / ppt)).toNat := count_pos_of_ppt ppt h0 h1
  set count := (round (1 / ppt)).toNat with hcdef
  set intN := total / count with hidef
  set base := (List.range intN).map
    (fun page => draw page (page * count) ((page + 1) * count)) with hbdef
  have hlohi : ∀ page, page * count < (page + 1) * count := by
    intro page
    have : page < page + 1 := Nat.lt_succ_self page
    exact Nat.mul_lt_mul_of_lt_of_le this (le_refl count) hcount
  have hbase_bounds : ∀ page, page * count ≤ draw page (page * count) ((page + 1) * count) ∧
      draw page (page * count) ((page + 1) * count) < (page + 1) * count := by
    intro page
    exact hdraw page _ _ (hlohi page)
  have hbase_lt : ∀ a ∈ base, a < intN * count := by
    intro a ha
    rcases List.mem_map.mp ha with ⟨page, hpage, rfl⟩
    have hp : page < intN := List.mem_range.mp hpage
    have := (hbase_bounds page).2
    calc draw page (page * count) ((page + 1) * count)
        < (page + 1) * count := this
      _ ≤ intN * count := Nat.mul_le_mul_right count hp
  have hmulle : intN * count ≤ total := by
    rw [hidef]
    exact Nat.div_mul_le_self total count
  have hdm : count * intN + total % count = total := by
    rw [hidef]
    exact Nat.div_add_mod total count
  have hcomm : intN * count = count * intN := Nat.mul_comm _ _
  have hbase_nodup : base.Nodup := by
    apply List.Nodup.map_on _ (List.nodup_range intN)
    intro p hp q hq heq
    have hbp := hbase_bounds p
    have hbq := hbase_bounds q
    rcases Nat.lt_trichotomy p q with hlt | heq' | hgt
    · exfalso
      have hple : (p + 1) * count ≤ q * count := Nat.mul_le_mul_right count hlt
      omega
    · exact heq'
    · exfalso
      have hqle : (q + 1) * count ≤ p * count := Nat.mul_le_mul_right count hgt
      omega
  set indexes := if total % count ≠ 0 then
      base ++ [draw intN (intN * count) total] else base with hxdef
  have hidx_nodup : indexes.Nodup := by
    rw [hxdef]
    by_cases hrem : total % count = 0
    · simp only [hrem, ne_eq, not_true_eq_false, if_false]
      exact hbase_nodup
    · simp only [ne_eq, hrem, not_false_eq_true, if_true]
      rw [List.nodup_append]
      refine ⟨hbase_nodup, List.nodup_singleton _, ?_⟩
      intro a ha hmem
      have h1' := hbase_lt a ha
      have htr : intN * count < total := by omega
      have := (hdraw intN (intN * count) total htr).1
      simp only [List.mem_singleton] at hmem
      omega
  have hidx_lt : ∀ a ∈ indexes, a < total := by
    intro a ha
    rw [hxdef] at ha
    by_cases hrem : total % count = 0
    · simp only [hrem, ne_eq, not_true_eq_false, if_false] at ha
      have := hbase_lt a ha
      omega
    · simp only [ne_eq, hrem, not_false_eq_true, if_true] at ha
      rcases List.mem_append.mp ha with hmem | hmem
      · have := hbase_lt a hmem
        omega
      · simp only [List.mem_singleton] at hmem
        have htr : intN * count < total := by omega
        have := (hdraw intN (intN * count) total htr).2
        omega
  have hidx_len : indexes.length = intN + (if total % count = 0 then 0 else 1) := by
    rw [hxdef]
    by_cases hrem : total % count = 0
    · simp [hrem, hbdef]
    · simp [hrem, hbdef]
  have hperm := hshuffle indexes
  have hsh_nodup : (shuffle indexes).Nodup := (hperm.nodup_iff).mpr hidx_nodup
  have hsh_len : (shuffle indexes).length = indexes.length := hperm.length_eq
  have hsh_lt : ∀ a ∈ shuffle indexes, a < total := by
    intro a ha
    exact hidx_lt a (hperm.mem_iff.mp ha)
  have hpag : paginate total ppt lim draw shuffle
      = ((shuffle indexes).take (min (shuffle indexes).length lim)).toFinset := by
    rw [paginate]
  have htake_nodup : ((shuffle indexes).take (min (shuffle indexes).length lim)).Nodup :=
    List.Nodup.sublist (List.take_sublist _ _) hsh_nodup
  constructor
  · intro i hi
    rw [hpag] at hi
    have hmem := List.mem_toFinset.mp hi
    exact hsh_lt i (List.take_subset _ _ hmem)
  · rw [hpag]
    rw [List.toFinset_card_of_nodup htake_nodup]
    rw [List.length_take]
    rw [hsh_len, hidx_len]
    omega

/-- Witness for C4 at total 10, density 1/4, limit 2, the lower-bound draw
stream and the identity shuffle. -/
theorem C4_paginate_shape_witness :
    (0 : ℚ) < 1 / 4 ∧ (1 / 4 : ℚ) < 1 ∧ (0 : ℕ) < 2 ∧
      ((∀ i ∈ paginate 10 (1 / 4) 2 (fun _ lo _ => lo) id, i < 10) ∧
        (paginate 10 (1 / 4) 2 (fun _ lo _ => lo) id).card
          = min (10 / (round ((1 : ℚ) / (1 / 4))).toNat
              + (if 10 % (round ((1 : ℚ) / (1 / 4))).toNat = 0 then 0 else 1)) 2) :=
  ⟨by norm_num, by norm_num, by norm_num,
    C4_paginate_shape 10 (1 / 4) 2 (fun _ lo _ => lo) id (by norm_num) (by norm_num)
      (by norm_num) (fun k lo hi hlt => ⟨le_refl lo, hlt⟩) (fun l => List.Perm.refl l)⟩
